import Mathlib

set_option maxHeartbeats 1000000
set_option maxRecDepth 4000

/-!
Verification of the embed toggle transform and the note creation flow of the
productivity research plugin (src/main.ts). The regular expression driven
line rewrite of the toggle command is embedded over lists of characters with
the exact matching semantics of the JavaScript engine: leftmost match,
greedy dot-star that excludes the four line terminators, and an optional
exclamation group that is forced by the following literal brackets.
-/

/-- Characters matched by the dot of a JavaScript regular expression without
the dotAll flag: any character except the four line terminators. -/
def isDotChar (c : Char) : Bool :=
  !(c == '\n' || c == '\r' || c == '\u2028' || c == '\u2029')

/-- Greedy semantics of the regex fragment dot-star followed by two closing
brackets, the tail of the pattern in src/main.ts line 50: splits the list
into a captured target, two closing brackets, and a suffix, where the target
is the longest run of dot characters admitting such a split. Returns none
when no such split exists. -/
def splitLastRB : List Char → Option (List Char × List Char)
  | [] => none
  | c :: rest =>
    match splitLastRB rest with
    | some (t, s) => if isDotChar c then some (c :: t, s) else none
    | none =>
      match rest with
      | d :: s => if c = ']' ∧ d = ']' then some ([], s) else none
      | [] => none

/-- The literal head of the pattern in src/main.ts line 50: a dash, a space,
an opening bracket, a state character that is x or a space, a closing
bracket and a space. Returns the captured state character and the rest. -/
def parseHead (l : List Char) : Option (Char × List Char) :=
  match l with
  | a :: b :: k :: d :: e :: f :: rest =>
    if a = '-' ∧ b = ' ' ∧ k = '[' ∧ (d = 'x' ∨ d = ' ') ∧ e = ']' ∧ f = ' ' then
      some (d, rest)
    else none
  | _ => none

/-- The optional exclamation group of the pattern followed by the two
literal opening brackets. The group is deterministic: it participates in the
match exactly when the next character is an exclamation mark, because the
alternative requires an opening bracket at the same position. -/
def parseBang (l : List Char) : Option (Bool × List Char) :=
  match l with
  | g :: rest =>
    if g = '!' then
      match rest with
      | h :: i :: r => if h = '[' ∧ i = '[' then some (true, r) else none
      | _ => none
    else if g = '[' then
      match rest with
      | h :: r => if h = '[' then some (false, r) else none
      | _ => none
    else none
  | [] => none

/-- Attempt to match the full pattern of src/main.ts line 50 at the start of
the given character list, returning the captured state character, the
presence of the exclamation mark, the captured link target and the text
after the match. -/
def parseAt (l : List Char) : Option (Char × Bool × List Char × List Char) :=
  match parseHead l with
  | none => none
  | some (d, rest) =>
    match parseBang rest with
    | none => none
    | some (b, r) =>
      match splitLastRB r with
      | none => none
      | some (t, s) => some (d, b, t, s)

/-- Leftmost match of the pattern in a line: the unmatched prefix before the
match, the captured state character, the presence of the exclamation mark,
the captured link target and the suffix after the match. -/
def findMatch : List Char → Option (List Char × Char × Bool × List Char × List Char)
  | [] => none
  | x :: xs =>
    match parseAt (x :: xs) with
    | some (c, b, t, s) => some ([], c, b, t, s)
    | none =>
      match findMatch xs with
      | some (p, c, b, t, s) => some (x :: p, c, b, t, s)
      | none => none

/-- The matched portion of a checklist link line rebuilt from a state
character, an embed marker flag and a link target, exactly as the template
string in src/main.ts line 51 rebuilds it. -/
def lineForm (c : Char) (b : Bool) (t : List Char) : List Char :=
  '-' :: ' ' :: '[' :: c :: ']' :: ' ' ::
    ((if b then ['!'] else []) ++ '[' :: '[' :: (t ++ ']' :: ']' :: []))

/-- One line of the embed toggle pass, src/main.ts lines 46 to 53: when the
line matches the pattern, the first match is replaced, emitting the
exclamation mark exactly when the flag is true; otherwise the line is left
unchanged. -/
def processLine (flag : Bool) (l : List Char) : List Char :=
  match findMatch l with
  | some (p, c, _, t, s) => p ++ lineForm c flag t ++ s
  | none => l

/-- Split a document on newline characters, as the JavaScript split in
src/main.ts line 43: the result is always nonempty and empty pieces are
kept. -/
def splitNL : List Char → List (List Char)
  | [] => [[]]
  | c :: rest =>
    if c = '\n' then [] :: splitNL rest
    else
      match splitNL rest with
      | [] => [[c]]
      | h :: t => (c :: h) :: t

/-- Join lines with newline characters, as the JavaScript join in
src/main.ts line 57. -/
def joinNL : List (List Char) → List Char
  | [] => []
  | [l] => l
  | l :: l2 :: rest => l ++ '\n' :: joinNL (l2 :: rest)

/-- The embed toggle transform of src/main.ts lines 43 to 60: split the
document into lines, rewrite each matching line according to the current
flag, join the lines back with newlines, and flip the flag. -/
def toggleEmbeds (doc : List Char) (flag : Bool) : List Char × Bool :=
  (joinNL ((splitNL doc).map (processLine flag)), !flag)

/-- The forbidden file name characters of the regex in src/main.ts line 226. -/
def forbiddenFileNameChars : List Char :=
  ['/', '\\', '?', '%', '*', ':', '|', '"', '<', '>']

/-- Validation of a candidate file name, src/main.ts lines 224 to 228: the
name is valid exactly when it contains none of the forbidden characters. -/
def isValidFileName (fileName : String) : Bool :=
  !(fileName.data.any fun c => forbiddenFileNameChars.contains c)

/-- Whitespace characters removed by the JavaScript trim method: the
WhiteSpace and LineTerminator productions of ECMAScript. -/
def isJSWhitespace (c : Char) : Bool :=
  [' ', '\t', '\n', '\u000B', '\u000C', '\r', '\u00A0', '\u1680', '\u2028',
    '\u2029', '\u202F', '\u205F', '\u3000', '\uFEFF'].contains c
  || (decide ('\u2000' ≤ c) && decide (c ≤ '\u200A'))

/-- The JavaScript trim method: remove leading and trailing whitespace. -/
def jsTrim (s : String) : String :=
  String.mk (((s.data.dropWhile isJSWhitespace).reverse.dropWhile isJSWhitespace).reverse)

/-- The candidate path built in src/main.ts line 209 from the raw input
value of the text field. -/
def researchPath (input : String) : String :=
  "Research/" ++ jsTrim input ++ ".md"

/-- Outcome of the submit key handler: one of the two error banners, or the
creation of one file followed by closing the dialog. -/
inductive SubmitResult where
  | invalidName
  | fileExists
  | created (path : String) (content : String)
  deriving DecidableEq

/-- The keydown handler for the submit key in src/main.ts lines 208 to 221,
with the vault modeled as the list of existing file paths: validate the raw
untrimmed input, then check the trimmed candidate path for collision, then
create the file with the full selected text and close. -/
def onSubmit (input selectedText : String) (vault : List String) : SubmitResult :=
  let fileName := researchPath input
  if !(isValidFileName input) then SubmitResult.invalidName
  else if vault.contains fileName then SubmitResult.fileExists
  else SubmitResult.created fileName selectedText

/-- Identifier and display name of a registered command. -/
structure CommandSpec where
  id : String
  name : String

/-- The embed toggle command registration of src/main.ts lines 33 to 35. -/
def toggleEmbeddingCommand : CommandSpec :=
  ⟨"toggle-embedding", "Toggle Embedding Notes"⟩

/-- The checking branch of the embed toggle command callback, src/main.ts
lines 37 to 40: the command is enabled exactly on markdown views. -/
def toggleEmbeddingCheck (viewType : String) : Bool :=
  viewType == "markdown"

theorem splitLastRB_cons (c : Char) (rest : List Char) :
    splitLastRB (c :: rest) =
      match splitLastRB rest with
      | some (t, s) => if isDotChar c then some (c :: t, s) else none
      | none =>
        match rest with
        | d :: s => if c = ']' ∧ d = ']' then some ([], s) else none
        | [] => none := rfl

theorem splitLastRB_sound :
    ∀ r t s, splitLastRB r = some (t, s) →
      r = t ++ ']' :: ']' :: s ∧ ∀ c ∈ t, isDotChar c = true := by
  intro r
  induction r with
  | nil => intro t s h; simp [splitLastRB] at h
  | cons c rest ih =>
    intro t s h
    rw [splitLastRB_cons] at h
    cases hr : splitLastRB rest with
    | some ts =>
      obtain ⟨t', s'⟩ := ts
      rw [hr] at h
      by_cases hd : isDotChar c
      · simp only [hd, if_true] at h
        obtain ⟨h1, h2⟩ := Option.some.inj h |> Prod.mk.inj
        obtain ⟨hrest, hdot⟩ := ih t' s' hr
        subst h1 h2
        refine ⟨by rw [hrest]; simp, ?_⟩
        intro a ha
        rcases List.mem_cons.mp ha with rfl | ha'
        · exact hd
        · exact hdot a ha'
      · simp [hd] at h
    | none =>
      rw [hr] at h
      cases rest with
      | nil => simp at h
      | cons d s2 =>
        simp only [] at h
        by_cases hc : c = ']' ∧ d = ']'
        · rw [if_pos hc] at h
          obtain ⟨h1, h2⟩ := Option.some.inj h |> Prod.mk.inj
          subst h1 h2
          exact ⟨by rw [hc.1, hc.2]; rfl, by intro a ha; simp at ha⟩
        · rw [if_neg hc] at h
          exact absurd h (by simp)

theorem splitLastRB_isSome (t s : List Char) (ht : ∀ c ∈ t, isDotChar c = true) :
    splitLastRB (t ++ ']' :: ']' :: s) ≠ none := by
  induction t with
  | nil =>
    intro h
    rw [List.nil_append, splitLastRB_cons] at h
    cases hr : splitLastRB (']' :: s) with
    | some ts => obtain ⟨t', s'⟩ := ts; rw [hr] at h; simp [isDotChar] at h
    | none => rw [hr] at h; simp at h
  | cons a t' ih =>
    intro h
    have ht' : ∀ c ∈ t', isDotChar c = true := fun c hc => ht c (List.mem_cons_of_mem a hc)
    rw [List.cons_append, splitLastRB_cons] at h
    cases hr : splitLastRB (t' ++ ']' :: ']' :: s) with
    | some ts =>
      obtain ⟨t2, s2⟩ := ts
      rw [hr] at h
      dsimp only [] at h
      rw [if_pos (ht a (List.mem_cons_self a t'))] at h
      exact absurd h (by simp)
    | none => exact (ih ht') hr

theorem splitLastRB_none_transfer
    (r r' : List Char)
    (hr : ∃ t s, (∀ c ∈ t, isDotChar c = true) ∧ r = t ++ ']' :: ']' :: s)
    (hr' : ∃ t s, (∀ c ∈ t, isDotChar c = true) ∧ r' = t ++ ']' :: ']' :: s)
    (hh : ∀ x xs, r = x :: xs → x ≠ ']')
    (hh' : ∀ x xs, r' = x :: xs → x ≠ ']') :
    ∀ z, splitLastRB (z ++ r) = none → splitLastRB (z ++ r') = none := by
  intro z
  induction z with
  | nil =>
    intro h
    obtain ⟨t, s, ht, rfl⟩ := hr
    exact absurd h (splitLastRB_isSome t s ht)
  | cons a z' ih =>
    intro h
    rw [List.cons_append, splitLastRB_cons] at h
    rw [List.cons_append, splitLastRB_cons]
    cases hzr : splitLastRB (z' ++ r) with
    | some ts =>
      obtain ⟨t0, s0⟩ := ts
      rw [hzr] at h
      dsimp only [] at h
      by_cases hd : isDotChar a
      · rw [if_pos hd] at h
        exact absurd h (by simp)
      · have ha : a ≠ ']' := fun he => hd (he ▸ (by decide : isDotChar ']' = true))
        cases hzr' : splitLastRB (z' ++ r') with
        | some ts' =>
          obtain ⟨t1, s1⟩ := ts'
          try dsimp only []
          rw [if_neg hd]
        | none =>
          try dsimp only []
          cases hz : z' ++ r' with
          | nil => rfl
          | cons d s2 =>
            try dsimp only []
            rw [if_neg (fun hcc => ha hcc.1)]
    | none =>
      have h2 := ih hzr
      rw [hzr] at h
      dsimp only [] at h
      rw [h2]
      try dsimp only []
      cases z' with
      | nil =>
        simp only [List.nil_append] at h ⊢
        obtain ⟨t1, s1, ht1, hre'⟩ := hr'
        cases hrc : r' with
        | nil => rfl
        | cons d s2 =>
          try dsimp only []
          have hd' : d ≠ ']' := hh' d s2 hrc
          rw [if_neg (fun hcc => hd' hcc.2)]
      | cons e z'' =>
        simp only [List.cons_append] at h ⊢
        have hcond : ¬(a = ']' ∧ e = ']') := by
          intro hc
          rw [if_pos hc] at h
          simp at h
        rw [if_neg hcond]

theorem lineForm_append (c : Char) (b : Bool) (t s : List Char) :
    lineForm c b t ++ s =
      '-' :: ' ' :: '[' :: c :: ']' :: ' ' ::
        ((if b then ['!'] else []) ++ '[' :: '[' :: (t ++ ']' :: ']' :: s)) := by
  simp [lineForm]

theorem parseHead_sound : ∀ l d rest, parseHead l = some (d, rest) →
    l = '-' :: ' ' :: '[' :: d :: ']' :: ' ' :: rest ∧ (d = 'x' ∨ d = ' ') := by
  intro l d rest h
  rcases l with _ | ⟨a, _ | ⟨b, _ | ⟨k, _ | ⟨d0, _ | ⟨e, _ | ⟨f, rest0⟩⟩⟩⟩⟩⟩ <;>
    simp only [parseHead] at h
  all_goals try exact Option.noConfusion h
  by_cases hc : a = '-' ∧ b = ' ' ∧ k = '[' ∧ (d0 = 'x' ∨ d0 = ' ') ∧ e = ']' ∧ f = ' '
  · rw [if_pos hc] at h
    obtain ⟨rfl, rfl⟩ := Prod.mk.inj (Option.some.inj h)
    obtain ⟨ha, hb, hk, hd, he, hf⟩ := hc
    subst ha; subst hb; subst hk; subst he; subst hf
    exact ⟨rfl, hd⟩
  · rw [if_neg hc] at h
    exact absurd h (by simp)

theorem parseHead_eval (d : Char) (rest : List Char) (hd : d = 'x' ∨ d = ' ') :
    parseHead ('-' :: ' ' :: '[' :: d :: ']' :: ' ' :: rest) = some (d, rest) := by
  rcases hd with rfl | rfl <;> rfl

theorem parseBang_sound : ∀ v b r, parseBang v = some (b, r) →
    v = (if b then ['!'] else []) ++ '[' :: '[' :: r := by
  intro v b r h
  rcases v with _ | ⟨g, rest⟩
  · simp [parseBang] at h
  · simp only [parseBang] at h
    by_cases hg : g = '!'
    · rw [if_pos hg] at h
      rcases rest with _ | ⟨h1, _ | ⟨i, r0⟩⟩
      · simp at h
      · simp at h
      · dsimp only [] at h
        by_cases hhi : h1 = '[' ∧ i = '['
        · rw [if_pos hhi] at h
          obtain ⟨rfl, rfl⟩ := Prod.mk.inj (Option.some.inj h)
          subst hg
          rw [hhi.1, hhi.2]
          rfl
        · rw [if_neg hhi] at h
          exact absurd h (by simp)
    · rw [if_neg hg] at h
      by_cases hg2 : g = '['
      · rw [if_pos hg2] at h
        rcases rest with _ | ⟨h1, r0⟩
        · simp at h
        · dsimp only [] at h
          by_cases hh1 : h1 = '['
          · rw [if_pos hh1] at h
            obtain ⟨rfl, rfl⟩ := Prod.mk.inj (Option.some.inj h)
            subst hg2
            rw [hh1]
            rfl
          · rw [if_neg hh1] at h
            exact absurd h (by simp)
      · rw [if_neg hg2] at h
        exact absurd h (by simp)

theorem parseBang_eval (b : Bool) (r : List Char) :
    parseBang ((if b then ['!'] else []) ++ '[' :: '[' :: r) = some (b, r) := by
  cases b <;> rfl

theorem parseAt_sound : ∀ u c b t s, parseAt u = some (c, b, t, s) →
    u = lineForm c b t ++ s ∧ (c = 'x' ∨ c = ' ') ∧
      (∀ a ∈ t, isDotChar a = true) ∧ splitLastRB (t ++ ']' :: ']' :: s) = some (t, s) := by
  intro u c b t s h
  unfold parseAt at h
  cases hh : parseHead u with
  | none => rw [hh] at h; exact Option.noConfusion h
  | some dr =>
    obtain ⟨d, rest⟩ := dr
    rw [hh] at h
    dsimp only [] at h
    cases hbng : parseBang rest with
    | none => rw [hbng] at h; exact Option.noConfusion h
    | some br =>
      obtain ⟨b0, r⟩ := br
      rw [hbng] at h
      dsimp only [] at h
      cases hsp : splitLastRB r with
      | none => rw [hsp] at h; exact Option.noConfusion h
      | some ts =>
        obtain ⟨t0, s0⟩ := ts
        rw [hsp] at h
        dsimp only [] at h
        simp only [Option.some.injEq, Prod.mk.injEq] at h
        obtain ⟨rfl, rfl, rfl, rfl⟩ := h
        obtain ⟨hu, hd⟩ := parseHead_sound u d rest hh
        have hrest := parseBang_sound rest b0 r hbng
        obtain ⟨hr, hdot⟩ := splitLastRB_sound r t0 s0 hsp
        subst hr
        refine ⟨?_, hd, hdot, hsp⟩
        rw [hu, hrest, lineForm_append]

theorem parseAt_eval (c : Char) (b : Bool) (t s : List Char)
    (hc : c = 'x' ∨ c = ' ') (hsp : splitLastRB (t ++ ']' :: ']' :: s) = some (t, s)) :
    parseAt (lineForm c b t ++ s) = some (c, b, t, s) := by
  rw [lineForm_append]
  unfold parseAt
  rw [parseHead_eval c _ hc]
  try dsimp only []
  rw [parseBang_eval b (t ++ ']' :: ']' :: s)]
  try dsimp only []
  rw [hsp]

theorem lineForm_decomp (c : Char) (b : Bool) (t s : List Char)
    (hc : c = 'x' ∨ c = ' ') (ht : ∀ a ∈ t, isDotChar a = true) :
    ∃ t1 s1, (∀ a ∈ t1, isDotChar a = true) ∧
      lineForm c b t ++ s = t1 ++ ']' :: ']' :: s1 := by
  refine ⟨'-' :: ' ' :: '[' :: c :: ']' :: ' ' :: ((if b then ['!'] else []) ++ '[' :: '[' :: t),
    s, ?_, ?_⟩
  · intro a ha
    simp only [List.mem_cons, List.mem_append] at ha
    rcases ha with rfl | rfl | rfl | rfl | rfl | rfl | ⟨hb | hb2⟩
    · decide
    · decide
    · decide
    · rcases hc with rfl | rfl <;> decide
    · decide
    · decide
    · cases b
      · simp at hb
      · simp at hb; subst hb; decide
    · rcases hb2 with rfl | rfl | hb4
      · decide
      · decide
      · exact ht a hb4
  · rw [lineForm_append]
    simp [List.append_assoc]

theorem lineForm_head_ne (c : Char) (b : Bool) (t s : List Char) :
    ∀ x xs, lineForm c b t ++ s = x :: xs → x ≠ ']' := by
  intro x xs hx
  rw [lineForm_append] at hx
  obtain ⟨h1, -⟩ := List.cons_eq_cons.mp hx
  rw [← h1]
  decide

theorem parseAt_none_transfer :
    ∀ u c b b' t s, (c = 'x' ∨ c = ' ') → (∀ a ∈ t, isDotChar a = true) →
    splitLastRB (t ++ ']' :: ']' :: s) = some (t, s) →
    parseAt (u ++ lineForm c b t ++ s) = none →
    parseAt (u ++ lineForm c b' t ++ s) = none := by
  intro u c b b' t s hc ht hsp h
  rcases u with _ | ⟨a1, _ | ⟨a2, _ | ⟨a3, _ | ⟨a4, _ | ⟨a5, _ | ⟨a6, urest⟩⟩⟩⟩⟩⟩
  · rw [List.nil_append] at h
    rw [parseAt_eval c b t s hc hsp] at h
    exact Option.noConfusion h
  · simp only [List.cons_append, List.nil_append] at h ⊢
    have hph : parseHead (a1 :: (lineForm c b' t ++ s)) = none := by
      rw [lineForm_append]
      simp only [parseHead]
      exact if_neg (fun hx => absurd hx.2.1 (by decide))
    unfold parseAt
    rw [hph]
  · simp only [List.cons_append, List.nil_append] at h ⊢
    have hph : parseHead (a1 :: a2 :: (lineForm c b' t ++ s)) = none := by
      rw [lineForm_append]
      simp only [parseHead]
      exact if_neg (fun hx => absurd hx.2.2.1 (by decide))
    unfold parseAt
    rw [hph]
  · simp only [List.cons_append, List.nil_append] at h ⊢
    have hph : parseHead (a1 :: a2 :: a3 :: (lineForm c b' t ++ s)) = none := by
      rw [lineForm_append]
      simp only [parseHead]
      exact if_neg (fun hx => absurd hx.2.2.2.1 (by decide))
    unfold parseAt
    rw [hph]
  · simp only [List.cons_append, List.nil_append] at h ⊢
    have hph : parseHead (a1 :: a2 :: a3 :: a4 :: (lineForm c b' t ++ s)) = none := by
      rw [lineForm_append]
      simp only [parseHead]
      exact if_neg (fun hx => absurd hx.2.2.2.2.1 (by decide))
    unfold parseAt
    rw [hph]
  · simp only [List.cons_append, List.nil_append] at h ⊢
    have hph : parseHead (a1 :: a2 :: a3 :: a4 :: a5 :: (lineForm c b' t ++ s)) = none := by
      rw [lineForm_append]
      simp only [parseHead]
      exact if_neg (fun hx => absurd hx.2.2.2.2.2 (by decide))
    unfold parseAt
    rw [hph]
  · simp only [List.cons_append, List.append_assoc] at h ⊢
    unfold parseAt at h ⊢
    by_cases hcond : a1 = '-' ∧ a2 = ' ' ∧ a3 = '[' ∧ (a4 = 'x' ∨ a4 = ' ') ∧ a5 = ']' ∧ a6 = ' '
    case neg =>
      have hph : parseHead
          (a1 :: a2 :: a3 :: a4 :: a5 :: a6 :: (urest ++ (lineForm c b' t ++ s))) = none := by
        simp only [parseHead]
        exact if_neg hcond
      rw [hph]
    case pos =>
      have hph : ∀ v : List Char,
          parseHead (a1 :: a2 :: a3 :: a4 :: a5 :: a6 :: v) = some (a4, v) := by
        intro v
        simp only [parseHead]
        exact if_pos hcond
      rw [hph] at h ⊢
      dsimp only [] at h ⊢
      rcases urest with _ | ⟨g, _ | ⟨h2, _ | ⟨i2, r3⟩⟩⟩
      · simp only [List.nil_append] at h ⊢
        have hpb : ∀ b2 : Bool, parseBang (lineForm c b2 t ++ s) = none := by
          intro b2
          rw [lineForm_append]
          simp only [parseBang]
          rw [if_neg (by decide : ¬('-' : Char) = '!'), if_neg (by decide : ¬('-' : Char) = '[')]
        rw [hpb b']
      · simp only [List.cons_append, List.nil_append] at h ⊢
        have hpb : ∀ b2 : Bool, parseBang (g :: (lineForm c b2 t ++ s)) = none := by
          intro b2
          rw [lineForm_append]
          simp only [parseBang]
          by_cases hg : g = '!'
          · rw [if_pos hg]
            try dsimp only []
            exact if_neg (fun hx => absurd hx.1 (by decide))
          · rw [if_neg hg]
            by_cases hg2 : g = '['
            · rw [if_pos hg2]
              try dsimp only []
              exact if_neg (by decide : ¬('-' : Char) = '[')
            · rw [if_neg hg2]
        rw [hpb b']
      · simp only [List.cons_append, List.nil_append] at h ⊢
        by_cases hg : g = '!'
        · have hpb : ∀ b2 : Bool, parseBang (g :: h2 :: (lineForm c b2 t ++ s)) = none := by
            intro b2
            rw [lineForm_append]
            simp only [parseBang]
            rw [if_pos hg]
            try dsimp only []
            exact if_neg (fun hx => absurd hx.2 (by decide))
          rw [hpb b']
        · by_cases hg2 : g = '['
          · by_cases hh2 : h2 = '['
            · have hpb : ∀ b2 : Bool, parseBang (g :: h2 :: (lineForm c b2 t ++ s)) =
                  some (false, lineForm c b2 t ++ s) := by
                intro b2
                simp only [parseBang]
                rw [if_neg hg, if_pos hg2]
                try dsimp only []
                rw [if_pos hh2]
              rw [hpb b] at h
              rw [hpb b']
              dsimp only [] at h ⊢
              cases hsb : splitLastRB (lineForm c b t ++ s) with
              | some v =>
                obtain ⟨tv, sv⟩ := v
                rw [hsb] at h
                dsimp only [] at h
                exact Option.noConfusion h
              | none =>
                have htr := splitLastRB_none_transfer (lineForm c b t ++ s)
                  (lineForm c b' t ++ s) (lineForm_decomp c b t s hc ht)
                  (lineForm_decomp c b' t s hc ht) (lineForm_head_ne c b t s)
                  (lineForm_head_ne c b' t s) [] (by rw [List.nil_append]; exact hsb)
                rw [List.nil_append] at htr
                rw [htr]
            · have hpb : ∀ b2 : Bool, parseBang (g :: h2 :: (lineForm c b2 t ++ s)) = none := by
                intro b2
                simp only [parseBang]
                rw [if_neg hg, if_pos hg2]
                try dsimp only []
                exact if_neg hh2
              rw [hpb b']
          · have hpb : ∀ b2 : Bool, parseBang (g :: h2 :: (lineForm c b2 t ++ s)) = none := by
              intro b2
              simp only [parseBang]
              rw [if_neg hg, if_neg hg2]
            rw [hpb b']
      · simp only [List.cons_append] at h ⊢
        by_cases hg : g = '!'
        · by_cases hhi : h2 = '[' ∧ i2 = '['
          · have hpb : ∀ b2 : Bool,
                parseBang (g :: h2 :: i2 :: (r3 ++ (lineForm c b2 t ++ s))) =
                  some (true, r3 ++ (lineForm c b2 t ++ s)) := by
              intro b2
              simp only [parseBang]
              rw [if_pos hg]
              try dsimp only []
              rw [if_pos hhi]
            rw [hpb b] at h
            rw [hpb b']
            dsimp only [] at h ⊢
            cases hsb : splitLastRB (r3 ++ (lineForm c b t ++ s)) with
            | some v =>
              obtain ⟨tv, sv⟩ := v
              rw [hsb] at h
              dsimp only [] at h
              exact Option.noConfusion h
            | none =>
              have htr := splitLastRB_none_transfer (lineForm c b t ++ s)
                (lineForm c b' t ++ s) (lineForm_decomp c b t s hc ht)
                (lineForm_decomp c b' t s hc ht) (lineForm_head_ne c b t s)
                (lineForm_head_ne c b' t s) r3 hsb
              rw [htr]
          · have hpb : ∀ b2 : Bool,
                parseBang (g :: h2 :: i2 :: (r3 ++ (lineForm c b2 t ++ s))) = none := by
              intro b2
              simp only [parseBang]
              rw [if_pos hg]
              try dsimp only []
              exact if_neg hhi
            rw [hpb b']
        · by_cases hg2 : g = '['
          · by_cases hh2 : h2 = '['
            · have hpb : ∀ b2 : Bool,
                  parseBang (g :: h2 :: i2 :: (r3 ++ (lineForm c b2 t ++ s))) =
                    some (false, i2 :: (r3 ++ (lineForm c b2 t ++ s))) := by
                intro b2
                simp only [parseBang]
                rw [if_neg hg, if_pos hg2]
                try dsimp only []
                rw [if_pos hh2]
              rw [hpb b] at h
              rw [hpb b']
              dsimp only [] at h ⊢
              cases hsb : splitLastRB (i2 :: (r3 ++ (lineForm c b t ++ s))) with
              | some v =>
                obtain ⟨tv, sv⟩ := v
                rw [hsb] at h
                dsimp only [] at h
                exact Option.noConfusion h
              | none =>
                have htr := splitLastRB_none_transfer (lineForm c b t ++ s)
                  (lineForm c b' t ++ s) (lineForm_decomp c b t s hc ht)
                  (lineForm_decomp c b' t s hc ht) (lineForm_head_ne c b t s)
                  (lineForm_head_ne c b' t s) (i2 :: r3)
                  (by rw [List.cons_append]; exact hsb)
                rw [List.cons_append] at htr
                rw [htr]
            · have hpb : ∀ b2 : Bool,
                  parseBang (g :: h2 :: i2 :: (r3 ++ (lineForm c b2 t ++ s))) = none := by
                intro b2
                simp only [parseBang]
                rw [if_neg hg, if_pos hg2]
                try dsimp only []
                exact if_neg hh2
              rw [hpb b']
          · have hpb : ∀ b2 : Bool,
                parseBang (g :: h2 :: i2 :: (r3 ++ (lineForm c b2 t ++ s))) = none := by
              intro b2
              simp only [parseBang]
              rw [if_neg hg, if_neg hg2]
            rw [hpb b']

theorem findMatch_cons (x : Char) (xs : List Char) :
    findMatch (x :: xs) =
      match parseAt (x :: xs) with
      | some (c, b, t, s) => some ([], c, b, t, s)
      | none =>
        match findMatch xs with
        | some (p, c, b, t, s) => some (x :: p, c, b, t, s)
        | none => none := rfl

theorem findMatch_sound : ∀ l p c b t s, findMatch l = some (p, c, b, t, s) →
    l = p ++ lineForm c b t ++ s ∧ (c = 'x' ∨ c = ' ') ∧
      (∀ a ∈ t, isDotChar a = true) ∧ splitLastRB (t ++ ']' :: ']' :: s) = some (t, s) := by
  intro l
  induction l with
  | nil => intro p c b t s h; exact Option.noConfusion h
  | cons x xs ih =>
    intro p c b t s h
    rw [findMatch_cons] at h
    cases hp : parseAt (x :: xs) with
    | some v =>
      obtain ⟨c0, b0, t0, s0⟩ := v
      rw [hp] at h
      try dsimp only [] at h
      simp only [Option.some.injEq, Prod.mk.injEq] at h
      obtain ⟨rfl, rfl, rfl, rfl, rfl⟩ := h
      have hs := parseAt_sound _ _ _ _ _ hp
      exact ⟨by rw [List.nil_append]; exact hs.1, hs.2⟩
    | none =>
      rw [hp] at h
      try dsimp only [] at h
      cases hf : findMatch xs with
      | some w =>
        obtain ⟨p0, c0, b0, t0, s0⟩ := w
        rw [hf] at h
        try dsimp only [] at h
        simp only [Option.some.injEq, Prod.mk.injEq] at h
        obtain ⟨rfl, rfl, rfl, rfl, rfl⟩ := h
        have hs := ih _ _ _ _ _ hf
        refine ⟨?_, hs.2⟩
        rw [List.cons_append, List.cons_append, hs.1]
      | none =>
        rw [hf] at h
        exact Option.noConfusion h

theorem findMatch_reparse : ∀ p c b b' t s,
    findMatch (p ++ lineForm c b t ++ s) = some (p, c, b, t, s) →
    findMatch (p ++ lineForm c b' t ++ s) = some (p, c, b', t, s) := by
  intro p
  induction p with
  | nil =>
    intro c b b' t s h
    simp only [List.nil_append] at h ⊢
    obtain ⟨-, hc, ht, hsp⟩ := findMatch_sound _ _ _ _ _ _ h
    have hpa := parseAt_eval c b' t s hc hsp
    rw [lineForm_append] at hpa ⊢
    rw [findMatch_cons, hpa]
  | cons x p' ih =>
    intro c b b' t s h
    obtain ⟨-, hc, ht, hsp⟩ := findMatch_sound _ _ _ _ _ _ h
    rw [List.cons_append, List.cons_append, findMatch_cons] at h
    cases hp : parseAt (x :: (p' ++ lineForm c b t ++ s)) with
    | some v =>
      obtain ⟨c0, b0, t0, s0⟩ := v
      rw [hp] at h
      try dsimp only [] at h
      simp only [Option.some.injEq, Prod.mk.injEq] at h
      exact absurd h.1 (by simp)
    | none =>
      rw [hp] at h
      try dsimp only [] at h
      cases hf : findMatch (p' ++ lineForm c b t ++ s) with
      | none =>
        rw [hf] at h
        exact Option.noConfusion h
      | some w =>
        obtain ⟨p0, c0, b0, t0, s0⟩ := w
        rw [hf] at h
        try dsimp only [] at h
        simp only [Option.some.injEq, Prod.mk.injEq] at h
        obtain ⟨hxp, hc0, hb0, ht0, hs0⟩ := h
        have hp0 : p0 = p' := (List.cons_eq_cons.mp hxp).2
        rw [hp0, hc0, hb0, ht0, hs0] at hf
        have hinner := ih c b b' t s hf
        have hnone : parseAt (x :: (p' ++ lineForm c b' t ++ s)) = none := by
          have := parseAt_none_transfer (x :: p') c b b' t s hc ht hsp
            (by rw [List.cons_append]; exact hp)
          rw [List.cons_append] at this
          exact this
        rw [List.cons_append, List.cons_append, findMatch_cons, hnone]
        try dsimp only []
        rw [hinner]

theorem processLine_none (flag : Bool) (l : List Char) (h : findMatch l = none) :
    processLine flag l = l := by
  simp only [processLine, h]

theorem processLine_some (flag : Bool) (l p : List Char) (c : Char) (b : Bool)
    (t s : List Char) (h : findMatch l = some (p, c, b, t, s)) :
    processLine flag l = p ++ lineForm c flag t ++ s := by
  simp only [processLine, h]

theorem processLine_comp (b b' : Bool) (l : List Char) :
    processLine b' (processLine b l) = processLine b' l := by
  cases hf : findMatch l with
  | none =>
    rw [processLine_none b l hf]
  | some w =>
    obtain ⟨p, c, b0, t, s⟩ := w
    obtain ⟨hl, hc, ht, hsp⟩ := findMatch_sound _ _ _ _ _ _ hf
    have hre : findMatch (p ++ lineForm c b t ++ s) = some (p, c, b, t, s) := by
      apply findMatch_reparse p c b0 b t s
      rw [← hl]
      exact hf
    rw [processLine_some b l p c b0 t s hf, processLine_some b' l p c b0 t s hf]
    exact processLine_some b' _ p c b t s hre

theorem mem_lineForm (a c : Char) (b : Bool) (t : List Char) (h : a ∈ lineForm c b t) :
    a = c ∨ a ∈ t ∨ a = '-' ∨ a = ' ' ∨ a = '[' ∨ a = ']' ∨ a = '!' := by
  unfold lineForm at h
  cases b <;>
    simp only [if_true, if_false, Bool.false_eq_true, List.nil_append, List.cons_append,
      List.mem_cons, List.mem_append, List.not_mem_nil, or_false, false_or] at h <;>
    tauto

theorem processLine_no_newline (flag : Bool) (l : List Char) (h : ('\n' : Char) ∉ l) :
    ('\n' : Char) ∉ processLine flag l := by
  cases hf : findMatch l with
  | none =>
    rw [processLine_none flag l hf]
    exact h
  | some w =>
    obtain ⟨p, c, b0, t, s⟩ := w
    obtain ⟨hl, hc, ht, hsp⟩ := findMatch_sound _ _ _ _ _ _ hf
    rw [processLine_some flag l p c b0 t s hf]
    subst hl
    intro hmem
    simp only [List.mem_append] at hmem h
    rcases hmem with (hp | hlf) | hs2
    · exact h (Or.inl (Or.inl hp))
    · rcases mem_lineForm _ _ _ _ hlf with hx | hx | hx | hx | hx | hx | hx
      · rcases hc with rfl | rfl <;> simp at hx
      · exact absurd (ht _ hx) (by decide)
      · simp at hx
      · simp at hx
      · simp at hx
      · simp at hx
      · simp at hx
    · exact h (Or.inr hs2)

theorem splitNL_cons (c : Char) (rest : List Char) :
    splitNL (c :: rest) =
      if c = '\n' then [] :: splitNL rest
      else
        match splitNL rest with
        | [] => [[c]]
        | h :: t => (c :: h) :: t := rfl

theorem splitNL_ne_nil : ∀ l, splitNL l ≠ [] := by
  intro l
  cases l with
  | nil => simp [splitNL]
  | cons c rest =>
    rw [splitNL_cons]
    by_cases hc : c = '\n'
    · rw [if_pos hc]
      simp
    · rw [if_neg hc]
      cases splitNL rest <;> simp

theorem splitNL_no_newline : ∀ l m, m ∈ splitNL l → ('\n' : Char) ∉ m := by
  intro l
  induction l with
  | nil =>
    intro m hm
    simp [splitNL] at hm
    subst hm
    simp
  | cons c rest ih =>
    intro m hm
    rw [splitNL_cons] at hm
    by_cases hc : c = '\n'
    · rw [if_pos hc] at hm
      rcases List.mem_cons.mp hm with rfl | hm2
      · simp
      · exact ih m hm2
    · rw [if_neg hc] at hm
      cases hs : splitNL rest with
      | nil => exact absurd hs (splitNL_ne_nil rest)
      | cons h0 t0 =>
        rw [hs] at hm
        try dsimp only [] at hm
        rcases List.mem_cons.mp hm with rfl | hm2
        · intro hx
          rcases List.mem_cons.mp hx with h1 | h2
          · exact hc h1.symm
          · exact ih h0 (by rw [hs]; exact List.mem_cons_self h0 t0) h2
        · exact ih m (by rw [hs]; exact List.mem_cons_of_mem h0 hm2)

theorem splitNL_of_no_newline : ∀ l, ('\n' : Char) ∉ l → splitNL l = [l] := by
  intro l
  induction l with
  | nil => intro _; rfl
  | cons c rest ih =>
    intro h
    have hc : c ≠ '\n' := fun hx => h (List.mem_cons.mpr (Or.inl hx.symm))
    have hrest : ('\n' : Char) ∉ rest := fun hx => h (List.mem_cons_of_mem c hx)
    rw [splitNL_cons, if_neg hc, ih hrest]

theorem splitNL_append : ∀ l u, ('\n' : Char) ∉ l →
    splitNL (l ++ '\n' :: u) = l :: splitNL u := by
  intro l
  induction l with
  | nil =>
    intro u _
    rw [List.nil_append, splitNL_cons, if_pos rfl]
  | cons c rest ih =>
    intro u h
    have hc : c ≠ '\n' := fun hx => h (List.mem_cons.mpr (Or.inl hx.symm))
    have hrest : ('\n' : Char) ∉ rest := fun hx => h (List.mem_cons_of_mem c hx)
    rw [List.cons_append, splitNL_cons, if_neg hc, ih u hrest]

theorem splitNL_joinNL : ∀ L, L ≠ [] → (∀ m ∈ L, ('\n' : Char) ∉ m) →
    splitNL (joinNL L) = L := by
  intro L
  induction L with
  | nil => intro h _; exact absurd rfl h
  | cons l rest ih =>
    intro _ hm
    cases rest with
    | nil =>
      have hj : joinNL [l] = l := rfl
      rw [hj]
      exact splitNL_of_no_newline l (hm l (List.mem_cons_self l []))
    | cons l2 rest2 =>
      have hj : joinNL (l :: l2 :: rest2) = l ++ '\n' :: joinNL (l2 :: rest2) := rfl
      rw [hj, splitNL_append l _ (hm l (List.mem_cons_self _ _))]
      rw [ih (by simp) (fun m hm2 => hm m (List.mem_cons_of_mem l hm2))]

theorem splitNL_toggleEmbeds (doc : List Char) (flag : Bool) :
    splitNL (toggleEmbeds doc flag).1 = (splitNL doc).map (processLine flag) := by
  unfold toggleEmbeds
  try dsimp only []
  apply splitNL_joinNL
  · intro hx
    rcases List.map_eq_nil_iff.mp hx with h0
    exact splitNL_ne_nil doc h0
  · intro m hm
    rw [List.mem_map] at hm
    obtain ⟨m0, hm0, rfl⟩ := hm
    exact processLine_no_newline flag m0 (splitNL_no_newline doc m0 hm0)

theorem toggleEmbeds_comp (doc : List Char) (b b' : Bool) :
    (toggleEmbeds (toggleEmbeds doc b).1 b').1 = (toggleEmbeds doc b').1 := by
  show joinNL ((splitNL (toggleEmbeds doc b).1).map (processLine b')) = _
  rw [splitNL_toggleEmbeds, List.map_map]
  unfold toggleEmbeds
  try dsimp only []
  congr 1
  apply List.map_congr_left
  intro l _
  exact processLine_comp b b' l

theorem toggleEmbeds_snd (doc : List Char) (flag : Bool) :
    (toggleEmbeds doc flag).2 = !flag := rfl

/-- Claim C1, counterexample: on the three line document of the scenario with
flag true, the transform does not produce the output claimed by the spec; in
particular the already embedded Beta line does not lose its exclamation
mark. -/
theorem c1_scenario_counterexample :
    toggleEmbeds ("- [ ] [[Alpha]]\n- [x] ![[Beta]]\n- plain text".data) true ≠
      ("- [ ] ![[Alpha]]\n- [x] [[Beta]]\n- plain text".data, false) := by
  decide

/-- Claim C1, amended: on the scenario document with flag true, every
matching line is rewritten to carry the exclamation mark, so the Beta line
keeps it; the flag becomes false. -/
theorem c1_scenario_amended :
    toggleEmbeds ("- [ ] [[Alpha]]\n- [x] ![[Beta]]\n- plain text".data) true =
      ("- [ ] ![[Alpha]]\n- [x] ![[Beta]]\n- plain text".data, false) := by
  decide

/-- Claim C2, counterexample: the text does not round trip after two
consecutive toggles: a single unembedded checklist link with flag false
gains an exclamation mark after the second toggle. -/
theorem c2_roundtrip_counterexample :
    (toggleEmbeds (toggleEmbeds ("- [ ] [[A]]".data) false).1
      (toggleEmbeds ("- [ ] [[A]]".data) false).2).1 ≠ "- [ ] [[A]]".data := by
  decide

/-- Claim C2, amended: after two consecutive toggles the flag returns to its
original value, and the text equals the result of a single pass run with the
negated flag, which in general differs from the original document. -/
theorem c2_roundtrip_amended (doc : List Char) (e : Bool) :
    (toggleEmbeds (toggleEmbeds doc e).1 (toggleEmbeds doc e).2).2 = e ∧
    (toggleEmbeds (toggleEmbeds doc e).1 (toggleEmbeds doc e).2).1 =
      (toggleEmbeds doc (!e)).1 := by
  constructor
  · rw [toggleEmbeds_snd, toggleEmbeds_snd, Bool.not_not]
  · rw [toggleEmbeds_snd]
    exact toggleEmbeds_comp doc e (!e)

/-- Claim C3: every line that matches the checklist link pattern decomposes
as prefix, matched portion and suffix, and the transform re-emits it with
the captured state character and link target unchanged, the exclamation
mark present exactly when the flag is true, and prefix and suffix kept. -/
theorem c3_matching_line_rewrite (flag : Bool) (l p : List Char) (c : Char) (b : Bool)
    (t s : List Char) (h : findMatch l = some (p, c, b, t, s)) :
    l = p ++ lineForm c b t ++ s ∧ processLine flag l = p ++ lineForm c flag t ++ s :=
  ⟨(findMatch_sound _ _ _ _ _ _ h).1, processLine_some flag l p c b t s h⟩

/-- Claim C3, witness at a concrete matching line. -/
theorem c3_matching_line_rewrite_witness :
    findMatch ("- [x] ![[Beta]] tail".data) =
      some ([], 'x', true, "Beta".data, " tail".data) ∧
    ("- [x] ![[Beta]] tail".data = [] ++ lineForm 'x' true ("Beta".data) ++ " tail".data ∧
      processLine false ("- [x] ![[Beta]] tail".data) =
        [] ++ lineForm 'x' false ("Beta".data) ++ " tail".data) :=
  ⟨by decide, c3_matching_line_rewrite false _ [] 'x' true _ _ (by decide)⟩

/-- Claim C4, counterexample: the pattern is not anchored at the start of
the line: a line whose pattern occurrence is preceded by another character
is still rewritten by the transform. -/
theorem c4_anchored_counterexample :
    (toggleEmbeds ("x- [x] ![[A]]".data) false).1 = "x- [x] [[A]]".data ∧
    (toggleEmbeds ("x- [x] ![[A]]".data) false).1 ≠ "x- [x] ![[A]]".data := by
  decide

/-- Claim C4, amended: the pattern is unanchored: the transform rewrites the
line at the leftmost position where the pattern matches, even after leading
text, and the leading text is preserved unchanged in the output. -/
theorem c4_unanchored_amended (flag : Bool) (l p : List Char) (c : Char) (b : Bool)
    (t s : List Char) (h : findMatch l = some (p, c, b, t, s)) :
    processLine flag l = p ++ lineForm c flag t ++ s :=
  processLine_some flag l p c b t s h

/-- Claim C4, witness at a line with a nonempty leading prefix. -/
theorem c4_unanchored_amended_witness :
    findMatch ("ab- [ ] [[T]]".data) = some ("ab".data, ' ', false, "T".data, []) ∧
    processLine true ("ab- [ ] [[T]]".data) = "ab".data ++ lineForm ' ' true ("T".data) ++ [] :=
  ⟨by decide, c4_unanchored_amended true _ _ ' ' false _ _ (by decide)⟩

/-- Claim C5: a line of the document that does not match the checklist link
pattern reappears character for character identical, at the same index, in
the output document of the transform. -/
theorem c5_nonmatching_line_unchanged (flag : Bool) (doc : List Char) (i : Nat)
    (li : List Char) (hi : (splitNL doc)[i]? = some li)
    (hnone : findMatch li = none) :
    (splitNL (toggleEmbeds doc flag).1)[i]? = some li := by
  rw [splitNL_toggleEmbeds, List.getElem?_map, hi]
  simp [processLine_none flag li hnone]

/-- Claim C5, witness at a concrete document and line index. -/
theorem c5_nonmatching_line_unchanged_witness :
    (splitNL ("- plain\n- [x] [[A]]".data))[0]? = some ("- plain".data) ∧
    findMatch ("- plain".data) = none ∧
    (splitNL (toggleEmbeds ("- plain\n- [x] [[A]]".data) true).1)[0]? =
      some ("- plain".data) :=
  ⟨by decide, by decide,
    c5_nonmatching_line_unchanged true _ 0 _ (by decide) (by decide)⟩

/-- Claim C6: the file name validator returns false exactly when the name
contains one of the ten forbidden characters, and the four concrete examples
of the spec evaluate as stated, including the empty string being valid. -/
theorem c6_isValidFileName_spec :
    (∀ s : String, isValidFileName s = false ↔ ∃ c ∈ s.data, c ∈ forbiddenFileNameChars) ∧
    isValidFileName "note" = true ∧ isValidFileName "a/b" = false ∧
    isValidFileName "a:b" = false ∧ isValidFileName "" = true := by
  refine ⟨?_, by decide, by decide, by decide, by decide⟩
  intro s
  simp [isValidFileName, List.any_eq_true]

/-- Claim C6, witness instantiating the equivalence at a concrete name. -/
theorem c6_isValidFileName_spec_witness :
    isValidFileName "a/b" = false ↔ ∃ c ∈ "a/b".data, c ∈ forbiddenFileNameChars :=
  c6_isValidFileName_spec.1 "a/b"

/-- Claim C7: on the submit key, an input failing validation shows the
invalid name banner and attempts no creation; a valid input whose candidate
path collides with an existing file shows the collision banner and attempts
no creation; and a valid, collision free input creates exactly one file at
the candidate path whose content is the original full selected text, then
closes the flow. -/
theorem c7_submit_behavior (input sel : String) (vault : List String) :
    (isValidFileName input = false → onSubmit input sel vault = SubmitResult.invalidName) ∧
    (isValidFileName input = true → vault.contains (researchPath input) = true →
      onSubmit input sel vault = SubmitResult.fileExists) ∧
    (isValidFileName input = true → vault.contains (researchPath input) = false →
      onSubmit input sel vault = SubmitResult.created (researchPath input) sel) := by
  refine ⟨fun hv => ?_, fun hv hcol => ?_, fun hv hcol => ?_⟩
  · simp [onSubmit, hv]
  · simp [onSubmit, hv]
    simpa using hcol
  · simp [onSubmit, hv]
    simpa using hcol

/-- Claim C7, witness covering the three submit outcomes on concrete
inputs. -/
theorem c7_submit_behavior_witness :
    onSubmit "Bad/Name" "Bad/Name\nBody" [] = SubmitResult.invalidName ∧
    onSubmit "My Note" "My Note\nBody text" ["Research/My Note.md"] =
      SubmitResult.fileExists ∧
    onSubmit "My Note" "My Note\nBody text" [] =
      SubmitResult.created "Research/My Note.md" "My Note\nBody text" := by
  refine ⟨(c7_submit_behavior "Bad/Name" "Bad/Name\nBody" []).1 (by decide),
    (c7_submit_behavior "My Note" "My Note\nBody text" ["Research/My Note.md"]).2.1
      (by decide) (by decide), ?_⟩
  have h := (c7_submit_behavior "My Note" "My Note\nBody text" []).2.2 (by decide) (by decide)
  rw [show researchPath "My Note" = "Research/My Note.md" from by decide] at h
  exact h

/-- Claim C8, counterexample: the embed toggle command is registered under
the id toggle-embedding, not toggle-embedding-notes. -/
theorem c8_command_id_counterexample :
    toggleEmbeddingCommand.id ≠ "toggle-embedding-notes" := by
  decide

/-- Claim C8, amended: the command id is toggle-embedding, its display name
is Toggle Embedding Notes, and the check callback enables the command
exactly when the active view type is markdown. -/
theorem c8_command_amended :
    toggleEmbeddingCommand.id = "toggle-embedding" ∧
    toggleEmbeddingCommand.name = "Toggle Embedding Notes" ∧
    ∀ vt : String, (toggleEmbeddingCheck vt = true ↔ vt = "markdown") := by
  refine ⟨rfl, rfl, fun vt => ?_⟩
  unfold toggleEmbeddingCheck
  exact beq_iff_eq

/-- Claim C8, witness instantiating the enabling condition at the markdown
view type. -/
theorem c8_command_amended_witness :
    toggleEmbeddingCheck "markdown" = true ↔ "markdown" = "markdown" :=
  c8_command_amended.2.2 "markdown"

/-- Claim C9: at a fixed flag value the line rewriting pass is idempotent:
running the pass a second time on its own output, with the same flag,
returns that output unchanged. -/
theorem c9_pass_idempotent (flag : Bool) (doc : List Char) :
    (toggleEmbeds (toggleEmbeds doc flag).1 flag).1 = (toggleEmbeds doc flag).1 :=
  toggleEmbeds_comp doc flag flag

/-- Claim C10: validation reads the raw input while the created path uses
the trimmed input, so any input made only of whitespace passes validation
and, when no file exists at the degenerate path, creates Research/.md with
the full selected text. -/
theorem c10_whitespace_input (input sel : String) (vault : List String)
    (hw : ∀ c ∈ input.data, isJSWhitespace c = true)
    (hv : vault.contains "Research/.md" = false) :
    isValidFileName input = true ∧
    onSubmit input sel vault = SubmitResult.created "Research/.md" sel := by
  have hany : input.data.any (fun c => forbiddenFileNameChars.contains c) = false := by
    rw [List.any_eq_false]
    intro c hc
    intro hcontains
    have hcmem : c ∈ forbiddenFileNameChars := by simpa using hcontains
    have hwc := hw c hc
    simp only [forbiddenFileNameChars, List.mem_cons, List.not_mem_nil, or_false] at hcmem
    rcases hcmem with rfl | rfl | rfl | rfl | rfl | rfl | rfl | rfl | rfl | rfl <;>
      exact absurd hwc (by decide)
  have hval : isValidFileName input = true := by
    unfold isValidFileName
    rw [hany]
    rfl
  have htrim : jsTrim input = "" := by
    unfold jsTrim
    have h1 : input.data.dropWhile isJSWhitespace = [] :=
      List.dropWhile_eq_nil_iff.mpr (fun x hx => by simp [hw x hx])
    rw [h1]
    rfl
  have hpath : researchPath input = "Research/.md" := by
    unfold researchPath
    rw [htrim]
    rfl
  refine ⟨hval, ?_⟩
  simp [onSubmit, hval, hpath]
  simpa using hv

/-- Claim C10, witness at a single space input with an empty vault. -/
theorem c10_whitespace_input_witness :
    (∀ c ∈ (" " : String).data, isJSWhitespace c = true) ∧
    (([] : List String).contains "Research/.md" = false) ∧
    (isValidFileName " " = true ∧
      onSubmit " " "t" [] = SubmitResult.created "Research/.md" "t") :=
  ⟨by decide, by decide, c10_whitespace_input " " "t" [] (by decide) (by decide)⟩
